import Mathlib

/-!
Verification development for the SSE streaming parser (`src/parse.ts`).

Bytes are modelled as `Nat` (values of `Uint8Array` cells), byte arrays as
`List Nat`, and decoded strings as their byte lists (`TextDecoder` on the
ASCII inputs used here is the identity on code points).  The two async
generators `getLines` and `getMessages` are modelled as functions from the
finite list of items their upstream yields to the finite list of items they
yield; the mutable locals of each generator become explicit state.
-/

namespace SSE

/-- ASCII bytes of a string literal (all inputs in this file are ASCII). -/
def str (s : String) : List Nat := s.data.map Char.toNat

/-- The `ControlChars` const enum of the source. -/
@[simp] abbrev ControlChars.NewLine : Nat := 10
/-- The `ControlChars` const enum of the source. -/
@[simp] abbrev ControlChars.CarriageReturn : Nat := 13
/-- The `ControlChars` const enum of the source. -/
@[simp] abbrev ControlChars.Space : Nat := 32
/-- The `ControlChars` const enum of the source. -/
@[simp] abbrev ControlChars.Colon : Nat := 58

/-- The `concat` helper of the source: allocates `a.length + b.length` and
copies both, i.e. list append. -/
def concat (a b : List Nat) : List Nat := a ++ b

/-- Result of one run of the inner `for` loop of `getLines` (the scan from
`position` forward looking for the end of the current line).  `rest` is the
unread tail of the buffer, `pos` the updated `position`, `fl` the updated
`fieldLength`, `lineEnd` the `\r`/`\n` index if one was found (`-1` in the
source), `disc` whether `discardTrailingNewline` was set (it enters the
`for` loop cleared, and is only written on `\r`). -/
structure ScanRes where
  rest : List Nat
  pos : Nat
  fl : Int
  lineEnd : Option Nat
  disc : Bool
  deriving Repr, DecidableEq

/-- The inner `for (; position < bufLength && lineEnd === -1; ++position)`
loop of `getLines`: `rest` is `buffer` from index `pos` on; on a colon with
`fieldLength === -1` set `fieldLength = position - lineStart`; on `\r` set
the discard flag and (fallthrough) record the line end; on `\n` record the
line end.  `position` ends at `lineEnd + 1` when a terminator is found. -/
def scanStep : List Nat → Nat → Nat → Int → ScanRes
  | [], pos, _, fl => ⟨[], pos, fl, none, false⟩
  | c :: rs, pos, lineStart, fl =>
    if c = ControlChars.Colon then
      scanStep rs (pos + 1) lineStart (if fl = -1 then ((pos - lineStart : Nat) : Int) else fl)
    else if c = ControlChars.CarriageReturn then
      ⟨rs, pos + 1, fl, some pos, true⟩
    else if c = ControlChars.NewLine then
      ⟨rs, pos + 1, fl, some pos, false⟩
    else
      scanStep rs (pos + 1) lineStart fl

theorem scanStep_rest_length (rest : List Nat) : ∀ pos ls fl,
    (scanStep rest pos ls fl).rest.length ≤ rest.length := by
  induction rest with
  | nil => intro pos ls fl; simp [scanStep]
  | cons c rs ih =>
    intro pos ls fl
    simp only [scanStep]
    split
    · exact (ih _ _ _).trans (Nat.le_succ _)
    · split
      · simp
      · split
        · simp
        · exact (ih _ _ _).trans (Nat.le_succ _)

theorem scanStep_some_lt (rest : List Nat) : ∀ pos ls fl e,
    (scanStep rest pos ls fl).lineEnd = some e →
    (scanStep rest pos ls fl).rest.length < rest.length := by
  induction rest with
  | nil => intro pos ls fl e h; simp [scanStep] at h
  | cons c rs ih =>
    intro pos ls fl e h
    by_cases h1 : c = ControlChars.Colon
    · simp only [scanStep, if_pos h1, List.length_cons]
      exact Nat.lt_succ_of_le (scanStep_rest_length rs _ _ _)
    · by_cases h2 : c = ControlChars.CarriageReturn
      · simp [scanStep, h1, h2]
      · by_cases h3 : c = ControlChars.NewLine
        · simp [scanStep, h1, h2, h3]
        · simp only [scanStep, if_neg h1, if_neg h2, if_neg h3, List.length_cons] at h ⊢
          exact Nat.lt_succ_of_le (Nat.le_of_lt (ih _ _ _ _ h))

/-- Result of the `while (position < bufLength)` loop of `getLines`:
the yielded `{line, fieldLength}` pairs, then the final values of
`position`, `lineStart`, `fieldLength` and `discardTrailingNewline`. -/
structure LoopRes where
  out : List (List Nat × Int)
  pos : Nat
  lineStart : Nat
  fl : Int
  disc : Bool
  deriving Repr, DecidableEq

/-- The `while (position < bufLength)` loop of `getLines`.  `rest` is
`buffer` from index `pos` on (so the loop guard is `rest ≠ []`).  Each
iteration: if the discard flag is set and the current byte is `\n`, skip it
(`lineStart = ++position`) and clear the flag (the flag is cleared in any
case); then run the inner scan (`scanStep`); if no line end was found,
break (the flag is clear at this point, the scan having ended the chunk on
a non-terminator); otherwise yield `buffer.subarray(lineStart, lineEnd)`
with the line's `fieldLength`, set `lineStart = position`, reset
`fieldLength = -1`, and continue. -/
def lineLoop (buffer : List Nat) : List Nat → Nat → Nat → Int → Bool → LoopRes
  | [], pos, lineStart, fl, d => ⟨[], pos, lineStart, fl, d⟩
  | c :: rs, pos, lineStart, fl, d =>
    if d ∧ c = ControlChars.NewLine then
      match h : scanStep rs (pos + 1) (pos + 1) fl with
      | ⟨_, pos2, fl2, none, _⟩ => ⟨[], pos2, pos + 1, fl2, false⟩
      | ⟨rest2, pos2, fl2, some e, d2⟩ =>
        let r := lineLoop buffer rest2 pos2 pos2 (-1) d2
        ⟨((buffer.take e).drop (pos + 1), fl2) :: r.out, r.pos, r.lineStart, r.fl, r.disc⟩
    else
      match h : scanStep (c :: rs) pos lineStart fl with
      | ⟨_, pos2, fl2, none, _⟩ => ⟨[], pos2, lineStart, fl2, false⟩
      | ⟨rest2, pos2, fl2, some e, d2⟩ =>
        let r := lineLoop buffer rest2 pos2 pos2 (-1) d2
        ⟨((buffer.take e).drop lineStart, fl2) :: r.out, r.pos, r.lineStart, r.fl, r.disc⟩
termination_by rest => rest.length
decreasing_by
  · have h1 := scanStep_some_lt rs (pos + 1) (pos + 1) fl e (by rw [h])
    have h2 : (scanStep rs (pos + 1) (pos + 1) fl).rest = rest2 := by rw [h]
    rw [h2] at h1
    simp
    omega
  · have h1 := scanStep_some_lt (c :: rs) pos lineStart fl e (by rw [h])
    have h2 : (scanStep (c :: rs) pos lineStart fl).rest = rest2 := by rw [h]
    rw [h2] at h1
    simpa using h1

/-- The persistent locals of the `getLines` generator: `buffer` (undefined
when the previous chunk was fully consumed), `position`, `fieldLength`,
`discardTrailingNewline`.  When `buffer` is `none` the source leaves stale
values in `position`/`fieldLength`; they are dead (re-initialized on the
next chunk) and are canonicalized to `0`/`-1` here. -/
structure LineState where
  buffer : Option (List Nat)
  position : Nat
  fieldLength : Int
  discard : Bool
  deriving Repr, DecidableEq

/-- Initial state of `getLines`: no buffer, flag clear. -/
def initialLineState : LineState := ⟨none, 0, -1, false⟩

/-- The body of `for await (const arr of iter)` in `getLines`: append the
new chunk to a pending buffer (or adopt it, resetting `position` and
`fieldLength`), run the while loop from `lineStart = 0`, then either drop
the buffer (fully consumed), re-slice it from `lineStart` (adjusting
`position`; `fieldLength` is already relative to the last `lineStart`), or
keep it as-is when `lineStart` is 0. -/
def processChunk (st : LineState) (arr : List Nat) : List (List Nat × Int) × LineState :=
  let buffer := match st.buffer with | some b => concat b arr | none => arr
  let position := match st.buffer with | some _ => st.position | none => 0
  let fieldLength := match st.buffer with | some _ => st.fieldLength | none => (-1 : Int)
  let r := lineLoop buffer (buffer.drop position) position 0 fieldLength st.discard
  if r.lineStart = buffer.length then
    (r.out, ⟨none, 0, -1, r.disc⟩)
  else if r.lineStart ≠ 0 then
    (r.out, ⟨some (buffer.drop r.lineStart), r.pos - r.lineStart, r.fl, r.disc⟩)
  else
    (r.out, ⟨some buffer, r.pos, r.fl, r.disc⟩)

/-- Run `getLines` from a given state over the remaining chunks,
collecting everything it yields. -/
def getLinesState : LineState → List (List Nat) → List (List Nat × Int)
  | _, [] => []
  | st, c :: cs =>
    let r := processChunk st c
    r.1 ++ getLinesState r.2 cs

/-- `getLines` of the source, as a function from the list of chunks the
upstream yields to the list of `{line, fieldLength}` pairs it yields. -/
def getLines (chunks : List (List Nat)) : List (List Nat × Int) :=
  getLinesState initialLineState chunks

/-- The `EventSourceMessage` interface: each of the four fields is an
optional property, present only once assigned. -/
structure EventSourceMessage where
  id : Option (List Nat)
  event : Option (List Nat)
  data : Option (List Nat)
  retry : Option Int
  deriving Repr, DecidableEq

/-- The fresh `message = {}` object: no properties set. -/
def emptyMessage : EventSourceMessage := ⟨none, none, none, none⟩

/-- The `for (const _ in message)` test: true iff at least one property has
been assigned (only the four known fields are ever assigned). -/
def hasAnyField (m : EventSourceMessage) : Bool :=
  m.id.isSome || m.event.isSome || m.data.isSome || m.retry.isSome

/-- Whitespace stripped by JavaScript `parseInt` before parsing (ASCII
white space; the inputs considered here are ASCII). -/
def isJsWhitespace (c : Nat) : Bool :=
  c = 32 || c = 9 || c = 10 || c = 11 || c = 12 || c = 13

/-- Is `c` an ASCII decimal digit. -/
def isDigit (c : Nat) : Bool := 48 ≤ c && c ≤ 57

/-- Numeric value of a list of ASCII digits, most significant first. -/
def digitsVal (l : List Nat) : Nat :=
  l.foldl (fun a c => a * 10 + (c - 48)) 0

/-- JavaScript `parseInt(value, 10)`: skip leading whitespace, an optional
sign, then read the longest leading run of decimal digits, ignoring any
trailing characters; `none` models `NaN` (no digits found). -/
def jsParseInt (s : List Nat) : Option Int :=
  match s.dropWhile isJsWhitespace with
  | [] => none
  | c :: rest =>
    if c = 43 then
      let ds := rest.takeWhile isDigit
      if ds = [] then none else some (digitsVal ds)
    else if c = 45 then
      let ds := rest.takeWhile isDigit
      if ds = [] then none else some (-(digitsVal ds : Int))
    else
      let ds := (c :: rest).takeWhile isDigit
      if ds = [] then none else some (digitsVal ds)

/-- The value offset of a field line: `fieldLength + (line[fieldLength + 1]
=== ControlChars.Space ? 2 : 1)` (an out-of-range access yields
`undefined`, which is not the space character). -/
def valueOffset (line : List Nat) (fl : Nat) : Nat :=
  fl + (if line.getD (fl + 1) 0 = ControlChars.Space then 2 else 1)

/-- The body of `for await (const { line, fieldLength } of iter)` in
`getMessages`: returns the message yielded by this iteration (if any) and
the updated accumulator.  An empty line yields the current message exactly
when it has at least one property, then resets it; a line with
`fieldLength > 0` decodes its field name and value and assigns
`message[field] = value` for the four recognized fields (`retry` parsing
the value as a base-10 integer and ignoring the line on `NaN`); comment
lines (`fieldLength = 0`) and lines with no colon (`fieldLength = -1`) are
skipped. -/
def messageStep (m : EventSourceMessage) (line : List Nat) (fieldLength : Int) :
    Option EventSourceMessage × EventSourceMessage :=
  if line.length = 0 then
    if hasAnyField m then (some m, emptyMessage) else (none, m)
  else if fieldLength > 0 then
    let fl := fieldLength.toNat
    let field := line.take fl
    let value := line.drop (valueOffset line fl)
    if field = str "retry" then
      match jsParseInt value with
      | none => (none, m)
      | some n => (none, { m with retry := some n })
    else if field = str "data" then (none, { m with data := some value })
    else if field = str "event" then (none, { m with event := some value })
    else if field = str "id" then (none, { m with id := some value })
    else (none, m)
  else (none, m)

/-- Run `getMessages` over the remaining `{line, fieldLength}` pairs from a
given accumulator, returning everything it yields and the final
accumulator. -/
def getMessagesRun (m : EventSourceMessage) :
    List (List Nat × Int) → List EventSourceMessage × EventSourceMessage
  | [] => ([], m)
  | (l, f) :: rest =>
    let s := messageStep m l f
    let r := getMessagesRun s.2 rest
    match s.1 with
    | some msg => (msg :: r.1, r.2)
    | none => r

/-- `getMessages` of the source, as a function from the list of line pairs
the upstream yields to the list of messages it yields (the in-progress
accumulator is dropped when the upstream ends). -/
def getMessages (lines : List (List Nat × Int)) : List EventSourceMessage :=
  (getMessagesRun emptyMessage lines).1

/-- `parseStream` of the source: bytes → lines → messages. -/
def parseStream (chunks : List (List Nat)) : List EventSourceMessage :=
  getMessages (getLines chunks)

/-- Index of the first colon byte in a line, if any. -/
def firstColonIdx : List Nat → Option Nat
  | [] => none
  | c :: rs => if c = ControlChars.Colon then some 0 else (firstColonIdx rs).map (· + 1)

/-- The `fieldLength` value belonging to a complete line: index of its
first colon, or the sentinel `-1` when it has none. -/
def firstColonFL (l : List Nat) : Int :=
  match firstColonIdx l with
  | some i => i
  | none => -1

/-- Result of the reference line assembler `linesRun`: the lines emitted,
the pending carriage-return flag, and the unterminated tail. -/
structure RunRes where
  out : List (List Nat × Int)
  disc : Bool
  cur : List Nat
  deriving Repr, DecidableEq

/-- Reference (specification) line assembler over a flat byte sequence:
one byte at a time, accumulate the current line `cur`; `\n` and `\r` both
terminate a line (tagged with its first-colon offset), `\r` additionally
arms `disc` so that an immediately following `\n` is consumed silently;
the unterminated tail is returned as `cur`, not emitted. -/
def linesRun : Bool → List Nat → List Nat → RunRes
  | d, cur, [] => ⟨[], d, cur⟩
  | d, cur, c :: rest =>
    if d ∧ c = ControlChars.NewLine then
      linesRun false cur rest
    else if c = ControlChars.NewLine then
      let r := linesRun false [] rest
      ⟨(cur, firstColonFL cur) :: r.out, r.disc, r.cur⟩
    else if c = ControlChars.CarriageReturn then
      let r := linesRun true [] rest
      ⟨(cur, firstColonFL cur) :: r.out, r.disc, r.cur⟩
    else
      linesRun false (cur ++ [c]) rest

/-! ### Properties of the first-colon offset -/

theorem firstColonIdx_append (x y : List Nat) :
    firstColonIdx (x ++ y) =
      match firstColonIdx x with
      | some i => some i
      | none => (firstColonIdx y).map (· + x.length) := by
  induction x with
  | nil => cases h : firstColonIdx y <;> simp [firstColonIdx, h]
  | cons c rs ih =>
    by_cases hc : c = ControlChars.Colon
    · simp [firstColonIdx, hc]
    · cases h2 : firstColonIdx rs with
      | some i => simp [firstColonIdx, hc, ih, h2]
      | none =>
        cases h3 : firstColonIdx y with
        | some i =>
          simp [firstColonIdx, hc, ih, h2, h3]
          omega
        | none => simp [firstColonIdx, hc, ih, h2, h3]

theorem firstColonFL_eq_neg_one (l : List Nat) :
    firstColonFL l = -1 ↔ firstColonIdx l = none := by
  unfold firstColonFL
  cases h : firstColonIdx l with
  | some i => simp
  | none => simp

theorem firstColonFL_of_idx (l : List Nat) (i : Nat) (h : firstColonIdx l = some i) :
    firstColonFL l = i := by
  unfold firstColonFL; rw [h]

/-- The `fieldLength` update performed by scanning the colon-free-or-not
bytes `a` from absolute position `pos` with line start `ls`: the first
colon sets `fieldLength` only if it is still `-1`. -/
def flExt (fl : Int) (ls pos : Nat) (a : List Nat) : Int :=
  if fl = -1 then
    match firstColonIdx a with
    | some i => ((pos + i - ls : Nat) : Int)
    | none => -1
  else fl

theorem flExt_eq_firstColonFL_append (fl : Int) (ls pos : Nat) (cur a : List Nat)
    (hfl : fl = firstColonFL cur) (hlen : cur.length = pos - ls) (hle : ls ≤ pos) :
    flExt fl ls pos a = firstColonFL (cur ++ a) := by
  unfold flExt firstColonFL
  rw [firstColonIdx_append]
  cases h : firstColonIdx cur with
  | some i =>
    have : fl = (i : Int) := by rw [hfl, firstColonFL_of_idx cur i h]
    have hne : ¬ fl = -1 := by omega
    simp [hne, this]
  | none =>
    have : fl = -1 := by rw [hfl, (firstColonFL_eq_neg_one cur).mpr h]
    subst this
    cases h2 : firstColonIdx a with
    | some i => simp; omega
    | none => simp

/-! ### Characterization of the inner scan -/

/-- Terminator-free bytes: no carriage return and no newline. -/
def noTerm (l : List Nat) : Prop :=
  ∀ b ∈ l, b ≠ ControlChars.CarriageReturn ∧ b ≠ ControlChars.NewLine

instance (l : List Nat) : Decidable (noTerm l) := by
  unfold noTerm; infer_instance

theorem flExt_nil (fl : Int) (ls pos : Nat) : flExt fl ls pos [] = fl := by
  unfold flExt
  split
  · simp only [firstColonIdx]
    omega
  · rfl

theorem flExt_colon (fl : Int) (ls pos : Nat) (rs : List Nat) :
    flExt (if fl = -1 then ((pos - ls : Nat) : Int) else fl) ls (pos + 1) rs =
      flExt fl ls pos (ControlChars.Colon :: rs) := by
  by_cases h : fl = -1
  · have hcast : ¬ (((pos - ls : Nat) : Int) = -1) := by omega
    simp only [h, if_pos rfl, flExt, hcast, if_neg hcast, firstColonIdx, if_pos rfl]
    simp
  · simp [flExt, h]

theorem flExt_cons (fl : Int) (ls pos : Nat) (c : Nat) (rs : List Nat)
    (hc : ¬ c = ControlChars.Colon) :
    flExt fl ls (pos + 1) rs = flExt fl ls pos (c :: rs) := by
  by_cases h : fl = -1
  · cases h2 : firstColonIdx rs with
    | some i =>
      simp [flExt, h, firstColonIdx, hc, h2]
      omega
    | none => simp [flExt, h, firstColonIdx, hc, h2]
  · simp [flExt, h]

theorem scanStep_noTerm (a : List Nat) : ∀ pos ls fl, noTerm a →
    scanStep a pos ls fl = ⟨[], pos + a.length, flExt fl ls pos a, none, false⟩ := by
  induction a with
  | nil => intro pos ls fl _; simp [scanStep, flExt_nil]
  | cons c rs ih =>
    intro pos ls fl h
    have hc := h c (List.mem_cons_self c rs)
    have hrs : noTerm rs := fun b hb => h b (List.mem_cons_of_mem c hb)
    by_cases hcol : c = ControlChars.Colon
    · subst hcol
      rw [scanStep, if_pos rfl, ih _ _ _ hrs, ← flExt_colon]
      simp only [ScanRes.mk.injEq, List.length_cons]
      simp
      all_goals omega
    · rw [scanStep, if_neg hcol, if_neg hc.1, if_neg hc.2, ih _ _ _ hrs,
        ← flExt_cons fl ls pos c rs hcol]
      simp only [ScanRes.mk.injEq, List.length_cons]
      simp
      all_goals omega

theorem scanStep_term (a : List Nat) : ∀ pos ls fl (t : Nat) (b : List Nat), noTerm a →
    (t = ControlChars.CarriageReturn ∨ t = ControlChars.NewLine) →
    scanStep (a ++ t :: b) pos ls fl =
      ⟨b, pos + a.length + 1, flExt fl ls pos a, some (pos + a.length),
        t = ControlChars.CarriageReturn⟩ := by
  induction a with
  | nil =>
    intro pos ls fl t b _ ht
    have hcol : ¬ t = ControlChars.Colon := by rcases ht with h | h <;> subst h <;> decide
    rcases ht with h | h
    · subst h; simp [scanStep, flExt_nil]
    · subst h; simp [scanStep, flExt_nil]
  | cons c rs ih =>
    intro pos ls fl t b h ht
    have hc := h c (List.mem_cons_self c rs)
    have hrs : noTerm rs := fun x hx => h x (List.mem_cons_of_mem c hx)
    by_cases hcol : c = ControlChars.Colon
    · subst hcol
      rw [List.cons_append, scanStep, if_pos rfl, ih _ _ _ _ _ hrs ht, ← flExt_colon]
      simp only [ScanRes.mk.injEq, List.length_cons, Option.some.injEq]
      simp
      all_goals omega
    · rw [List.cons_append, scanStep, if_neg hcol, if_neg hc.1, if_neg hc.2,
        ih _ _ _ _ _ hrs ht, ← flExt_cons fl ls pos c rs hcol]
      simp only [ScanRes.mk.injEq, List.length_cons, Option.some.injEq]
      simp
      all_goals omega

/-- Every byte sequence is either terminator-free or splits at its first
terminator. -/
theorem noTerm_or_split (rest : List Nat) :
    noTerm rest ∨ ∃ a t b, rest = a ++ t :: b ∧ noTerm a ∧
      (t = ControlChars.CarriageReturn ∨ t = ControlChars.NewLine) := by
  induction rest with
  | nil => left; intro b hb; simp at hb
  | cons c rs ih =>
    by_cases hc : c = ControlChars.CarriageReturn ∨ c = ControlChars.NewLine
    · right
      exact ⟨[], c, rs, by simp, fun b hb => by simp at hb, hc⟩
    · push_neg at hc
      rcases ih with h | ⟨a, t, b, rfl, ha, ht⟩
      · left
        intro b hb
        rcases List.mem_cons.mp hb with rfl | hb
        · exact hc
        · exact h b hb
      · right
        refine ⟨c :: a, t, b, by simp, ?_, ht⟩
        intro x hx
        rcases List.mem_cons.mp hx with rfl | hx
        · exact hc
        · exact ha x hx

/-! ### Properties of the reference assembler -/

theorem linesRun_false_of_ne (c : Nat) (hc : ¬ c = ControlChars.NewLine) (d : Bool)
    (cur rest : List Nat) :
    linesRun d cur (c :: rest) = linesRun false cur (c :: rest) := by
  cases d
  · rfl
  · simp [linesRun, hc]

/-- The reference assembler consumes a pending `\n` after `\r`. -/
theorem linesRun_skip (cur rest : List Nat) :
    linesRun true cur (ControlChars.NewLine :: rest) = linesRun false cur rest := by
  simp [linesRun]

theorem linesRun_noTerm (a : List Nat) : ∀ cur, noTerm a →
    linesRun false cur a = ⟨[], false, cur ++ a⟩ := by
  induction a with
  | nil => intro cur _; simp [linesRun]
  | cons c rs ih =>
    intro cur h
    have hc := h c (List.mem_cons_self c rs)
    have hrs : noTerm rs := fun b hb => h b (List.mem_cons_of_mem c hb)
    simp [linesRun, hc.1, hc.2, ih _ hrs]

theorem linesRun_append_noTerm (a : List Nat) : ∀ cur input, noTerm a →
    linesRun false cur (a ++ input) = linesRun false (cur ++ a) input := by
  induction a with
  | nil => intro cur input _; simp
  | cons c rs ih =>
    intro cur input h
    have hc := h c (List.mem_cons_self c rs)
    have hrs : noTerm rs := fun b hb => h b (List.mem_cons_of_mem c hb)
    simp [linesRun, hc.1, hc.2, ih _ _ hrs]

/-! ### List bookkeeping for buffer positions -/

theorem length_take_drop (buffer : List Nat) (ls pos : Nat) (h : pos ≤ buffer.length) :
    ((buffer.take pos).drop ls).length = pos - ls := by
  simp [List.length_drop, List.length_take]
  omega

theorem drop_take_self (l : List Nat) (n : Nat) : (l.take n).drop n = [] := by
  simp [List.drop_take]

theorem take_drop_split (buffer : List Nat) (ls pos k : Nat) (h1 : ls ≤ pos)
    (h2 : pos ≤ buffer.length) :
    (buffer.take (pos + k)).drop ls =
      (buffer.take pos).drop ls ++ (buffer.drop pos).take k := by
  rw [List.take_add, List.drop_append_eq_append_drop]
  have hlen : (buffer.take pos).length = pos := by simp [List.length_take]; omega
  rw [hlen, Nat.sub_eq_zero_of_le h1, List.drop_zero]

theorem drop_append_cons (a : List Nat) (t : Nat) (b : List Nat) :
    (a ++ t :: b).drop (a.length + 1) = b := by
  have : a ++ t :: b = (a ++ [t]) ++ b := by simp
  rw [this]
  have hlen : (a ++ [t]).length = a.length + 1 := by simp
  rw [← hlen, List.drop_left]

/-! ### The while loop refines the reference assembler -/

/-- Inside the while loop, a set discard flag with the byte under the
cursor being `\n` performs exactly the skip and continues the loop. -/
theorem lineLoop_skip (buffer : List Nat) (rs : List Nat) (pos lineStart : Nat) (fl : Int) :
    lineLoop buffer (ControlChars.NewLine :: rs) pos lineStart fl true =
      lineLoop buffer rs (pos + 1) (pos + 1) fl false := by
  cases rs with
  | nil => simp [lineLoop, scanStep]
  | cons c rs2 =>
    rcases h : scanStep (c :: rs2) (pos + 1) (pos + 1) fl with ⟨rest2, pos2, fl2, le, d2⟩
    cases le with
    | none => simp [lineLoop, h]
    | some e => simp [lineLoop, h]

/-- One iteration of the while loop when the inner scan finds no line end:
the loop breaks with the flag clear and `lineStart` unchanged. -/
theorem lineLoop_break (buffer : List Nat) (c : Nat) (rs : List Nat) (pos ls : Nat)
    (fl : Int) (d : Bool) (hB : ¬ (d = true ∧ c = ControlChars.NewLine))
    (r2 : List Nat) (pos2 : Nat) (fl2 : Int) (d2 : Bool)
    (hscan : scanStep (c :: rs) pos ls fl = ⟨r2, pos2, fl2, none, d2⟩) :
    lineLoop buffer (c :: rs) pos ls fl d = ⟨[], pos2, ls, fl2, false⟩ := by
  simp only [lineLoop]
  rw [if_neg hB]
  split
  · rename_i heq
    rw [hscan] at heq
    simp only [ScanRes.mk.injEq] at heq
    obtain ⟨-, h2, h3, -, -⟩ := heq
    rw [h2, h3]
  · rename_i heq
    rw [hscan] at heq
    simp at heq

/-- One iteration of the while loop when the inner scan finds a line end:
the line is yielded and the loop continues past it with `fieldLength`
reset. -/
theorem lineLoop_emit (buffer : List Nat) (c : Nat) (rs : List Nat) (pos ls : Nat)
    (fl : Int) (d : Bool) (hB : ¬ (d = true ∧ c = ControlChars.NewLine))
    (rest2 : List Nat) (pos2 : Nat) (fl2 : Int) (e : Nat) (d2 : Bool)
    (hscan : scanStep (c :: rs) pos ls fl = ⟨rest2, pos2, fl2, some e, d2⟩) :
    lineLoop buffer (c :: rs) pos ls fl d =
      (let r := lineLoop buffer rest2 pos2 pos2 (-1) d2
       ⟨((buffer.take e).drop ls, fl2) :: r.out, r.pos, r.lineStart, r.fl, r.disc⟩) := by
  simp only [lineLoop]
  rw [if_neg hB]
  split
  · rename_i heq
    rw [hscan] at heq
    simp at heq
  · rename_i heq
    rw [hscan] at heq
    simp only [ScanRes.mk.injEq, Option.some.injEq] at heq
    obtain ⟨h1, h2, h3, h4, h5⟩ := heq
    rw [h1, h2, h3, h4, h5]

/-- Package a reference-assembler result as the final state of the while
loop over `buffer`: same output lines, `position` at the end of the
buffer, `lineStart` at the start of the unterminated tail, `fieldLength`
the tail's first-colon offset, same discard flag. -/
def loopAbs (buffer : List Nat) (r : RunRes) : LoopRes :=
  ⟨r.out, buffer.length, buffer.length - r.cur.length, firstColonFL r.cur, r.disc⟩

theorem loopAbs_mk (buffer : List Nat) (out : List (List Nat × Int)) (d : Bool)
    (cur : List Nat) :
    loopAbs buffer ⟨out, d, cur⟩ =
      ⟨out, buffer.length, buffer.length - cur.length, firstColonFL cur, d⟩ := rfl

/-- The imperative while loop of `getLines`, run to the end of the buffer,
computes exactly what the reference assembler computes. -/
theorem lineLoop_eq_linesRun (buffer : List Nat) :
    ∀ (n pos lineStart : Nat) (fl : Int) (d : Bool),
    buffer.length - pos ≤ n →
    lineStart ≤ pos → pos ≤ buffer.length →
    fl = firstColonFL ((buffer.take pos).drop lineStart) →
    (d = true → lineStart = pos) →
    lineLoop buffer (buffer.drop pos) pos lineStart fl d =
      loopAbs buffer (linesRun d ((buffer.take pos).drop lineStart) (buffer.drop pos)) := by
  intro n
  induction n with
  | zero =>
    intro pos ls fl d hn h1 h2 hfl hd
    have hpos : pos = buffer.length := by omega
    have hnil : buffer.drop pos = [] := by
      apply List.drop_eq_nil_of_le
      omega
    have hlen : ((buffer.take pos).drop ls).length = pos - ls := length_take_drop _ _ _ h2
    rw [hnil]
    have e1 : lineLoop buffer [] pos ls fl d = ⟨[], pos, ls, fl, d⟩ := by simp [lineLoop]
    have e2 : linesRun d ((buffer.take pos).drop ls) ([] : List Nat) =
        ⟨[], d, (buffer.take pos).drop ls⟩ := rfl
    have e3 : buffer.length - ((buffer.take pos).drop ls).length = ls := by
      rw [hlen]
      omega
    rw [e1, e2, loopAbs_mk, e3, ← hfl, hpos]
  | succ n ih =>
    intro pos ls fl d hn h1 h2 hfl hd
    cases hrest : buffer.drop pos with
    | nil =>
      have hpos : pos = buffer.length := by
        have := congrArg List.length hrest
        simp [List.length_drop] at this
        omega
      have hlen : ((buffer.take pos).drop ls).length = pos - ls := length_take_drop _ _ _ h2
      have e1 : lineLoop buffer [] pos ls fl d = ⟨[], pos, ls, fl, d⟩ := by simp [lineLoop]
      have e2 : linesRun d ((buffer.take pos).drop ls) ([] : List Nat) =
          ⟨[], d, (buffer.take pos).drop ls⟩ := rfl
      have e3 : buffer.length - ((buffer.take pos).drop ls).length = ls := by
        rw [hlen]
        omega
      rw [e1, e2, loopAbs_mk, e3, ← hfl, hpos]
    | cons c rs =>
      have hlt : pos < buffer.length := by
        have := congrArg List.length hrest
        simp [List.length_drop] at this
        omega
      have hlencur : ((buffer.take pos).drop ls).length = pos - ls := length_take_drop _ _ _ h2
      have hrs : rs = buffer.drop (pos + 1) := by
        have h5 : buffer.drop (pos + 1) = (buffer.drop pos).drop 1 := by
          rw [List.drop_drop]
        rw [h5, hrest]
        rfl
      by_cases hB : d = true ∧ c = ControlChars.NewLine
      · -- skip the newline left over from a carriage return
        obtain ⟨hdt, hc10⟩ := hB
        subst hdt hc10
        have hls : ls = pos := hd rfl
        have hcur : (buffer.take pos).drop pos = [] := drop_take_self _ _
        have hfl1 : fl = -1 := by
          rw [hfl, hls, hcur]
          rfl
        have hIH := ih (pos + 1) (pos + 1) fl false (by omega) (Nat.le_refl _) (by omega)
          (by rw [drop_take_self]; exact hfl1) (by intro hcl; cases hcl)
        rw [drop_take_self] at hIH
        rw [hls, lineLoop_skip, hrs, hIH, drop_take_self, linesRun_skip]
      · -- ordinary iteration: scan for the next terminator
        have hRHS : linesRun d ((buffer.take pos).drop ls) (c :: rs) =
            linesRun false ((buffer.take pos).drop ls) (c :: rs) := by
          by_cases hc10 : c = ControlChars.NewLine
          · cases d with
            | false => rfl
            | true => exact absurd ⟨rfl, hc10⟩ hB
          · exact linesRun_false_of_ne c hc10 d _ _
        rcases noTerm_or_split (c :: rs) with hnt | ⟨a, t, b, hsplit, ha, ht⟩
        · -- no terminator: the loop breaks, the tail is retained
          have hscan := scanStep_noTerm (c :: rs) pos ls fl hnt
          have hlenrest : rs.length + 1 = buffer.length - pos := by
            have := congrArg List.length hrest
            simp [List.length_drop] at this
            omega
          have hflext := flExt_eq_firstColonFL_append fl ls pos
            ((buffer.take pos).drop ls) (c :: rs) hfl (by omega) h1
          rw [lineLoop_break buffer c rs pos ls fl d hB [] (pos + (c :: rs).length)
            (flExt fl ls pos (c :: rs)) false hscan, hRHS, linesRun_noTerm _ _ hnt,
            loopAbs_mk, hflext]
          have e4 : pos + (c :: rs).length = buffer.length := by
            simp
            omega
          have e5 : buffer.length - ((buffer.take pos).drop ls ++ c :: rs).length = ls := by
            rw [List.length_append, hlencur]
            simp
            omega
          rw [e4, e5]
        · -- terminator found: a line is emitted and the loop continues
          have hscan := scanStep_term a pos ls fl t b ha ht
          rw [← hsplit] at hscan
          have hlenrest : a.length + 1 + b.length = buffer.length - pos := by
            have := congrArg List.length hrest
            rw [hsplit] at this
            simp [List.length_drop] at this
            omega
          have hb : b = buffer.drop (pos + a.length + 1) := by
            have h5 : buffer.drop (pos + (a.length + 1)) = (buffer.drop pos).drop (a.length + 1) := by
              rw [List.drop_drop]
            rw [← Nat.add_assoc] at h5
            rw [h5, hrest, hsplit, drop_append_cons]
          have hIH := ih (pos + a.length + 1) (pos + a.length + 1) (-1)
            (decide (t = ControlChars.CarriageReturn)) (by omega) (Nat.le_refl _) (by omega)
            (by rw [drop_take_self]; rfl) (fun _ => rfl)
          rw [drop_take_self, ← hb] at hIH
          have hline : (buffer.take (pos + a.length)).drop ls =
              (buffer.take pos).drop ls ++ a := by
            rw [take_drop_split buffer ls pos a.length h1 (by omega), hrest, hsplit,
              List.take_left]
          have hflext := flExt_eq_firstColonFL_append fl ls pos
            ((buffer.take pos).drop ls) a hfl (by omega) h1
          rw [lineLoop_emit buffer c rs pos ls fl d hB b (pos + a.length + 1)
            (flExt fl ls pos a) (pos + a.length) (decide (t = ControlChars.CarriageReturn))
            hscan, hIH, hRHS, hsplit, linesRun_append_noTerm a _ _ ha, hline, hflext]
          rcases ht with rfl | rfl
          · simp [linesRun, loopAbs]
          · simp [linesRun, loopAbs]

/-! ### Invariants of the reference assembler -/

theorem linesRun_cur_suffix (input : List Nat) : ∀ (d : Bool) (cur : List Nat),
    (d = true → cur = []) → (linesRun d cur input).cur <:+ cur ++ input := by
  induction input with
  | nil => intro d cur _; simp [linesRun]
  | cons c rest ih =>
    intro d cur hd
    by_cases hA : d = true ∧ c = ControlChars.NewLine
    · obtain ⟨hdt, rfl⟩ := hA
      subst hdt
      rw [hd rfl, linesRun_skip]
      refine (ih false [] (by intro h; cases h)).trans ?_
      simp
    · by_cases h10 : c = ControlChars.NewLine
      · subst h10
        have hd0 : d = false := by
          cases d
          · rfl
          · exact absurd ⟨rfl, rfl⟩ hA
        subst hd0
        simp only [linesRun, if_neg hA, if_pos rfl]
        refine (ih false [] (by intro h; cases h)).trans ?_
        simp
        exact (List.suffix_cons _ _).trans (List.suffix_append _ _)
      · by_cases h13 : c = ControlChars.CarriageReturn
        · subst h13
          simp only [linesRun, if_neg hA, if_neg h10, if_pos rfl]
          refine (ih true [] (fun _ => rfl)).trans ?_
          simp
          exact (List.suffix_cons _ _).trans (List.suffix_append _ _)
        · simp only [linesRun, if_neg hA, if_neg h10, if_neg h13]
          refine (ih false (cur ++ [c]) (by intro h; cases h)).trans ?_
          rw [List.append_assoc]
          simp

theorem linesRun_disc_nil (input : List Nat) : ∀ (d : Bool) (cur : List Nat),
    (d = true → cur = []) →
    (linesRun d cur input).disc = true → (linesRun d cur input).cur = [] := by
  induction input with
  | nil =>
    intro d cur hd h
    simp only [linesRun] at h ⊢
    exact hd h
  | cons c rest ih =>
    intro d cur hd
    by_cases hA : d = true ∧ c = ControlChars.NewLine
    · simp only [linesRun, if_pos hA]
      exact ih false cur (by intro h; cases h)
    · by_cases h10 : c = ControlChars.NewLine
      · simp only [linesRun, if_neg hA, if_pos h10]
        exact ih false [] (by intro h; cases h)
      · by_cases h13 : c = ControlChars.CarriageReturn
        · simp only [linesRun, if_neg hA, if_neg h10, if_pos h13]
          exact ih true [] (fun _ => rfl)
        · simp only [linesRun, if_neg hA, if_neg h10, if_neg h13]
          exact ih false (cur ++ [c]) (by intro h; cases h)

theorem linesRun_cur_noTerm (input : List Nat) : ∀ (d : Bool) (cur : List Nat),
    noTerm cur → noTerm (linesRun d cur input).cur := by
  induction input with
  | nil => intro d cur h; simpa [linesRun] using h
  | cons c rest ih =>
    intro d cur h
    by_cases hA : d = true ∧ c = ControlChars.NewLine
    · simp only [linesRun, if_pos hA]
      exact ih false cur h
    · by_cases h10 : c = ControlChars.NewLine
      · simp only [linesRun, if_neg hA, if_pos h10]
        exact ih false [] (by intro b hb; simp at hb)
      · by_cases h13 : c = ControlChars.CarriageReturn
        · simp only [linesRun, if_neg hA, if_neg h10, if_pos h13]
          exact ih true [] (by intro b hb; simp at hb)
        · simp only [linesRun, if_neg hA, if_neg h10, if_neg h13]
          refine ih false (cur ++ [c]) ?_
          intro b hb
          rcases List.mem_append.mp hb with hb | hb
          · exact h b hb
          · simp at hb
            subst hb
            exact ⟨h13, h10⟩

theorem linesRun_out_sound (input : List Nat) : ∀ (d : Bool) (cur : List Nat),
    noTerm cur → ∀ l f, (l, f) ∈ (linesRun d cur input).out →
      f = firstColonFL l ∧ noTerm l := by
  induction input with
  | nil => intro d cur _ l f h; simp [linesRun] at h
  | cons c rest ih =>
    intro d cur hcur l f h
    by_cases hA : d = true ∧ c = ControlChars.NewLine
    · simp only [linesRun, if_pos hA] at h
      exact ih false cur hcur l f h
    · by_cases h10 : c = ControlChars.NewLine
      · simp only [linesRun, if_neg hA, if_pos h10, List.mem_cons] at h
        rcases h with h | h
        · simp only [Prod.mk.injEq] at h
          obtain ⟨rfl, rfl⟩ := h
          exact ⟨rfl, hcur⟩
        · exact ih false [] (by intro b hb; simp at hb) l f h
      · by_cases h13 : c = ControlChars.CarriageReturn
        · simp only [linesRun, if_neg hA, if_neg h10, if_pos h13, List.mem_cons] at h
          rcases h with h | h
          · simp only [Prod.mk.injEq] at h
            obtain ⟨rfl, rfl⟩ := h
            exact ⟨rfl, hcur⟩
          · exact ih true [] (by intro b hb; simp at hb) l f h
        · simp only [linesRun, if_neg hA, if_neg h10, if_neg h13] at h
          refine ih false (cur ++ [c]) ?_ l f h
          intro b hb
          rcases List.mem_append.mp hb with hb | hb
          · exact hcur b hb
          · simp at hb
            subst hb
            exact ⟨h13, h10⟩

theorem linesRun_out_noTerm (a : List Nat) : ∀ (d : Bool) (cur : List Nat),
    noTerm a → (linesRun d cur a).out = [] := by
  induction a with
  | nil => intro d cur _; simp [linesRun]
  | cons c rest ih =>
    intro d cur h
    have hc := h c (List.mem_cons_self c rest)
    have hrest : noTerm rest := fun b hb => h b (List.mem_cons_of_mem c hb)
    have hA : ¬ (d = true ∧ c = ControlChars.NewLine) := fun hx => hc.2 hx.2
    simp only [linesRun, if_neg hA, if_neg hc.2, if_neg hc.1]
    exact ih false (cur ++ [c]) hrest

theorem linesRun_append (x : List Nat) : ∀ (y : List Nat) (d : Bool) (cur : List Nat),
    linesRun d cur (x ++ y) =
      ⟨(linesRun d cur x).out ++
         (linesRun (linesRun d cur x).disc (linesRun d cur x).cur y).out,
       (linesRun (linesRun d cur x).disc (linesRun d cur x).cur y).disc,
       (linesRun (linesRun d cur x).disc (linesRun d cur x).cur y).cur⟩ := by
  induction x with
  | nil => intro y d cur; simp [linesRun]
  | cons c rest ih =>
    intro y d cur
    by_cases hA : d = true ∧ c = ControlChars.NewLine
    · obtain ⟨hdt, rfl⟩ := hA
      subst hdt
      rw [List.cons_append, linesRun_skip, linesRun_skip, ih]
    · by_cases h10 : c = ControlChars.NewLine
      · subst h10
        have hd0 : d = false := by
          cases d
          · rfl
          · exact absurd ⟨rfl, rfl⟩ hA
        subst hd0
        simp [linesRun, ih]
      · by_cases h13 : c = ControlChars.CarriageReturn
        · subst h13
          simp [linesRun, ih, hA]
        · simp [linesRun, h10, h13, ih, hA]

/-! ### Suffix bookkeeping -/

theorem suffix_drop_eq (l₁ l₂ : List Nat) (h : l₁ <:+ l₂) :
    l₂.drop (l₂.length - l₁.length) = l₁ := by
  obtain ⟨t, rfl⟩ := h
  have hlen : (t ++ l₁).length - l₁.length = t.length := by
    simp
  rw [hlen, List.drop_left]

theorem suffix_eq_of_length (l₁ l₂ : List Nat) (h : l₁ <:+ l₂)
    (hl : l₁.length = l₂.length) : l₁ = l₂ := by
  obtain ⟨t, rfl⟩ := h
  have h2 := hl
  rw [List.length_append] at h2
  have ht : t = [] := List.eq_nil_of_length_eq_zero (by omega)
  subst ht
  simp

/-! ### The full line assembler refines the reference assembler -/

/-- The generator state corresponding to a pending unterminated tail `p`
and discard flag `d`: an empty tail means the buffer has been dropped. -/
def concState (p : List Nat) (d : Bool) : LineState :=
  if p = [] then ⟨none, 0, -1, d⟩ else ⟨some p, p.length, firstColonFL p, d⟩

theorem processChunk_none (d : Bool) (arr : List Nat) :
    processChunk ⟨none, 0, -1, d⟩ arr =
      (let buffer := arr
       let r := lineLoop buffer (buffer.drop 0) 0 0 (-1) d
       if r.lineStart = buffer.length then (r.out, ⟨none, 0, -1, r.disc⟩)
       else if r.lineStart ≠ 0 then
         (r.out, ⟨some (buffer.drop r.lineStart), r.pos - r.lineStart, r.fl, r.disc⟩)
       else (r.out, ⟨some buffer, r.pos, r.fl, r.disc⟩)) := rfl

theorem processChunk_some (b : List Nat) (position : Nat) (fieldLength : Int) (d : Bool)
    (arr : List Nat) :
    processChunk ⟨some b, position, fieldLength, d⟩ arr =
      (let buffer := concat b arr
       let r := lineLoop buffer (buffer.drop position) position 0 fieldLength d
       if r.lineStart = buffer.length then (r.out, ⟨none, 0, -1, r.disc⟩)
       else if r.lineStart ≠ 0 then
         (r.out, ⟨some (buffer.drop r.lineStart), r.pos - r.lineStart, r.fl, r.disc⟩)
       else (r.out, ⟨some buffer, r.pos, r.fl, r.disc⟩)) := rfl

/-- The retention step at the end of a chunk iteration rebuilds exactly
the state corresponding to the unterminated tail. -/
theorem retention_eq (buffer : List Nat) (out : List (List Nat × Int)) (disc2 : Bool)
    (cur2 : List Nat) (hsuf : cur2 <:+ buffer) :
    (if buffer.length - cur2.length = buffer.length then
       (out, (⟨none, 0, -1, disc2⟩ : LineState))
     else if buffer.length - cur2.length ≠ 0 then
       (out, ⟨some (buffer.drop (buffer.length - cur2.length)),
         buffer.length - (buffer.length - cur2.length), firstColonFL cur2, disc2⟩)
     else (out, ⟨some buffer, buffer.length, firstColonFL cur2, disc2⟩))
    = (out, concState cur2 disc2) := by
  have hlen := hsuf.length_le
  by_cases hc : cur2 = []
  · subst hc
    rw [if_pos (by simp)]
    simp [concState]
  · have hne : cur2.length ≠ 0 := by
      cases cur2
      · exact absurd rfl hc
      · simp
    by_cases heq : cur2.length = buffer.length
    · have hcur : cur2 = buffer := suffix_eq_of_length _ _ hsuf heq
      rw [if_neg (by omega), if_neg (by omega)]
      subst hcur
      simp [concState, hc]
    · rw [if_neg (by omega), if_pos (by omega)]
      have e1 : buffer.drop (buffer.length - cur2.length) = cur2 := suffix_drop_eq _ _ hsuf
      have e2 : buffer.length - (buffer.length - cur2.length) = cur2.length := by omega
      rw [e1, e2]
      simp [concState, hc]

/-- One `for await` iteration of `getLines` on a chunk, starting from the
state for pending tail `p` and flag `d`, yields exactly the lines the
reference assembler finds in `p ++ chunk` past `p`, and ends in the state
for the new pending tail and flag. -/
theorem processChunk_spec (p : List Nat) (d : Bool) (arr : List Nat)
    (hpd : p ≠ [] → d = false) :
    processChunk (concState p d) arr =
      ((linesRun d p arr).out,
        concState (linesRun d p arr).cur (linesRun d p arr).disc) := by
  have hdp : d = true → p = [] := by
    intro hdt
    by_contra hne
    rw [hpd hne] at hdt
    cases hdt
  by_cases hp : p = []
  · subst hp
    have hc0 : concState ([] : List Nat) d = ⟨none, 0, -1, d⟩ := rfl
    have hloop := lineLoop_eq_linesRun arr arr.length 0 0 (-1) d (by omega) (by omega)
      (by omega) rfl (fun _ => rfl)
    simp only [List.take_zero, List.drop_zero] at hloop
    have hsuf : (linesRun d [] arr).cur <:+ arr := by
      have := linesRun_cur_suffix arr d [] (fun _ => rfl)
      simpa using this
    rcases hr : linesRun d ([] : List Nat) arr with ⟨out, disc2, cur2⟩
    rw [hr] at hloop hsuf
    rw [hc0, processChunk_none]
    simp only []
    rw [List.drop_zero, hloop, loopAbs_mk]
    exact retention_eq arr out disc2 cur2 hsuf
  · have hd0 : d = false := hpd hp
    subst hd0
    have hc0 : concState p false = ⟨some p, p.length, firstColonFL p, false⟩ := by
      simp [concState, hp]
    have hloop := lineLoop_eq_linesRun (p ++ arr) arr.length p.length 0 (firstColonFL p)
      false (by simp) (by omega) (by simp)
      (by rw [List.drop_zero, List.take_left]) (by intro h; cases h)
    simp only [List.drop_zero, List.take_left, List.drop_left] at hloop
    have hsuf : (linesRun false p arr).cur <:+ p ++ arr :=
      linesRun_cur_suffix arr false p (by intro h; cases h)
    rcases hr : linesRun false p arr with ⟨out, disc2, cur2⟩
    rw [hr] at hloop hsuf
    rw [hc0, processChunk_some]
    simp only [concat]
    rw [List.drop_left, hloop, loopAbs_mk]
    exact retention_eq (p ++ arr) out disc2 cur2 hsuf

theorem getLinesState_spec (chunks : List (List Nat)) : ∀ (p : List Nat) (d : Bool),
    (p ≠ [] → d = false) →
    getLinesState (concState p d) chunks = (linesRun d p chunks.flatten).out := by
  induction chunks with
  | nil => intro p d _; simp [getLinesState, linesRun]
  | cons c cs ih =>
    intro p d hpd
    have hdp : d = true → p = [] := by
      intro hdt
      by_contra hne
      rw [hpd hne] at hdt
      cases hdt
    have hnext : (linesRun d p c).cur ≠ [] → (linesRun d p c).disc = false := by
      intro h
      cases hdisc : (linesRun d p c).disc
      · rfl
      · exact absurd (linesRun_disc_nil c d p hdp hdisc) h
    have : getLinesState (concState p d) (c :: cs) =
        (processChunk (concState p d) c).1 ++
          getLinesState (processChunk (concState p d) c).2 cs := rfl
    rw [this, processChunk_spec p d c hpd]
    rw [ih (linesRun d p c).cur (linesRun d p c).disc hnext]
    rw [List.flatten_cons, linesRun_append]

/-- `getLines` on any chunk sequence yields exactly the lines the
reference assembler finds in the flattened byte sequence. -/
theorem getLines_eq_linesRun (chunks : List (List Nat)) :
    getLines chunks = (linesRun false [] chunks.flatten).out := by
  have h0 : initialLineState = concState [] false := rfl
  rw [getLines, h0, getLinesState_spec chunks [] false (fun h => absurd rfl h)]

/-! ### Properties of the message assembler -/

theorem parseStream_eval (chunks : List (List Nat)) :
    parseStream chunks = getMessages ((linesRun false [] chunks.flatten).out) := by
  unfold parseStream
  rw [getLines_eq_linesRun]

/-- A non-empty line never causes a yield. -/
theorem messageStep_fst_of_ne (m : EventSourceMessage) (l : List Nat) (f : Int)
    (hl : l ≠ []) : (messageStep m l f).1 = none := by
  have hlen : ¬ l.length = 0 := by
    cases l
    · exact absurd rfl hl
    · simp
  simp only [messageStep, if_neg hlen]
  split
  · split
    · split <;> rfl
    · split
      · rfl
      · split
        · rfl
        · split
          · rfl
          · rfl
  · rfl

/-- Comment lines and separator-less lines leave the accumulator
untouched. -/
theorem messageStep_skip (m : EventSourceMessage) (l : List Nat) (f : Int)
    (hl : l ≠ []) (hf : ¬ f > 0) : messageStep m l f = (none, m) := by
  have hlen : ¬ l.length = 0 := by
    cases l
    · exact absurd rfl hl
    · simp
  simp only [messageStep, if_neg hlen, if_neg hf]

theorem getMessagesRun_append (xs : List (List Nat × Int)) :
    ∀ (ys : List (List Nat × Int)) (m : EventSourceMessage),
    getMessagesRun m (xs ++ ys) =
      ((getMessagesRun m xs).1 ++ (getMessagesRun (getMessagesRun m xs).2 ys).1,
       (getMessagesRun (getMessagesRun m xs).2 ys).2) := by
  induction xs with
  | nil => intro ys m; simp [getMessagesRun]
  | cons q rest ih =>
    intro ys m
    obtain ⟨l, f⟩ := q
    rcases hs : (messageStep m l f).1 with _ | msg
    · simp [getMessagesRun, hs, ih]
    · simp [getMessagesRun, hs, ih]

theorem getMessagesRun_no_blank (extra : List (List Nat × Int)) :
    ∀ m, (∀ p ∈ extra, p.1 ≠ []) → (getMessagesRun m extra).1 = [] := by
  induction extra with
  | nil => intro m _; rfl
  | cons q rest ih =>
    intro m h
    obtain ⟨l, f⟩ := q
    have hq : l ≠ [] := h (l, f) (List.mem_cons_self _ _)
    have hrest : ∀ p ∈ rest, p.1 ≠ [] := fun p hp => h p (List.mem_cons_of_mem _ hp)
    simp [getMessagesRun, messageStep_fst_of_ne m l f hq, ih _ hrest]

/-- A group of comment lines and blank lines starting from the empty
accumulator yields nothing and ends with the empty accumulator. -/
theorem getMessagesRun_comments (lines : List (List Nat × Int))
    (h : ∀ p ∈ lines, p.1 = [] ∨ p.2 ≤ 0) :
    getMessagesRun emptyMessage lines = ([], emptyMessage) := by
  induction lines with
  | nil => rfl
  | cons q rest ih =>
    obtain ⟨l, f⟩ := q
    have hq := h (l, f) (List.mem_cons_self _ _)
    have hstep : messageStep emptyMessage l f = (none, emptyMessage) := by
      rcases hq with rfl | hf
      · simp [messageStep, hasAnyField, emptyMessage]
      · by_cases hl : l = []
        · subst hl
          simp [messageStep, hasAnyField, emptyMessage]
        · exact messageStep_skip emptyMessage l f hl (by omega)
    simp [getMessagesRun, hstep,
      ih (fun p hp => h p (List.mem_cons_of_mem _ hp))]

/-! ### Characterizing the first-colon offset by indices -/

theorem firstColonIdx_none (l : List Nat) :
    firstColonIdx l = none ↔ ControlChars.Colon ∉ l := by
  induction l with
  | nil => simp [firstColonIdx]
  | cons c rs ih =>
    by_cases hc : c = ControlChars.Colon
    · subst hc
      simp [firstColonIdx]
    · simp only [firstColonIdx, if_neg hc, List.mem_cons]
      rw [Option.map_eq_none', ih]
      constructor
      · intro h h2
        rcases h2 with h2 | h2
        · exact hc h2.symm
        · exact h h2
      · intro h h2
        exact h (Or.inr h2)

theorem firstColonIdx_first (l : List Nat) : ∀ (i : Nat),
    l[i]? = some ControlChars.Colon →
    (∀ j, j < i → ¬ l[j]? = some ControlChars.Colon) →
    firstColonIdx l = some i := by
  induction l with
  | nil => intro i h _; simp at h
  | cons c rs ih =>
    intro i h hmin
    by_cases hc : c = ControlChars.Colon
    · subst hc
      cases i with
      | zero => simp [firstColonIdx]
      | succ i2 =>
        exact absurd (by simp : (ControlChars.Colon :: rs)[0]? = some ControlChars.Colon)
          (hmin 0 (Nat.succ_pos _))
    · cases i with
      | zero =>
        simp at h
        exact absurd h hc
      | succ i2 =>
        have h2 : rs[i2]? = some ControlChars.Colon := by simpa using h
        have hmin2 : ∀ j, j < i2 → ¬ rs[j]? = some ControlChars.Colon := by
          intro j hj hcol
          exact hmin (j + 1) (by omega) (by simpa using hcol)
        simp [firstColonIdx, hc, ih i2 h2 hmin2]

/-! ### takeWhile and dropWhile bookkeeping for parseInt -/

theorem dropWhile_append_all (p : Nat → Bool) (w : List Nat) : ∀ t,
    (∀ c ∈ w, p c = true) → List.dropWhile p (w ++ t) = List.dropWhile p t := by
  induction w with
  | nil => intro t _; rfl
  | cons c rs ih =>
    intro t h
    have hc := h c (List.mem_cons_self _ _)
    simp [List.dropWhile_cons, hc, ih t (fun x hx => h x (List.mem_cons_of_mem _ hx))]

theorem dropWhile_of_head_false (p : Nat → Bool) (c : Nat) (rest : List Nat)
    (h : p c = false) : List.dropWhile p (c :: rest) = c :: rest := by
  simp [List.dropWhile_cons, h]

theorem takeWhile_all_head_false (q : Nat → Bool) (d : List Nat) : ∀ r,
    (∀ c ∈ d, q c = true) → (∀ c, r.head? = some c → q c = false) →
    List.takeWhile q (d ++ r) = d := by
  induction d with
  | nil =>
    intro r _ hr
    cases r with
    | nil => rfl
    | cons c rest => simp [List.takeWhile_cons, hr c rfl]
  | cons c ds ih =>
    intro r h hr
    have hc := h c (List.mem_cons_self _ _)
    simp [List.takeWhile_cons, hc, ih r (fun x hx => h x (List.mem_cons_of_mem _ hx)) hr]

theorem isDigit_not_ws (c : Nat) (h : isDigit c = true) : isJsWhitespace c = false := by
  simp [isDigit] at h
  simp [isJsWhitespace]
  omega

theorem isDigit_ne_sign (c : Nat) (h : isDigit c = true) : ¬ c = 43 ∧ ¬ c = 45 := by
  simp [isDigit] at h
  omega

/-! ### The claims -/

/-- C1: Chunking invariance of the Line Assembler: for every byte sequence
and every way of splitting it into a sequence of chunks (including one
byte per chunk), feeding the chunks through `getLines` yields exactly the
same sequence of (line, fieldLength) results as feeding the whole sequence
as a single chunk. -/
theorem C1_chunking_invariance (chunks : List (List Nat)) :
    getLines chunks = getLines [chunks.flatten] := by
  rw [getLines_eq_linesRun, getLines_eq_linesRun]
  simp

/-- C2 counterexample: the input `"data:YHOO\ndata: +2\ndata\ndata: 10\n\n"`
fed through `getLines` then `getMessages` yields one message whose data is
`"10"`, not `"YHOO\n+2\n\n10"`: each `data` line overwrites the
accumulator and the colon-less bare `data` line is dropped. -/
theorem C2_counterexample :
    parseStream [str "data:YHOO\ndata: +2\ndata\ndata: 10\n\n"] =
      [⟨none, none, some (str "10"), none⟩] ∧
    ¬ str "10" = str "YHOO\n+2\n\n10" := by
  constructor
  · rw [parseStream_eval]
    decide
  · decide

/-- C2 amended: for every message group processed by `getMessages`, each
`data` field line overwrites the accumulator's data with its decoded
value (no newline-joining); a line with `fieldLength ≤ 0` (such as the
bare `data` line, which `getLines` reports with fieldLength `-1`) leaves
the accumulator unchanged; in particular the input
`"data:YHOO\ndata: +2\ndata\ndata: 10\n\n"` fed through `getLines` then
`getMessages` yields one message whose data equals `"10"`. -/
theorem C2_data_overwrite :
    (∀ (m : EventSourceMessage) (l : List Nat) (f : Int), f > 0 →
      l.take f.toNat = str "data" →
      messageStep m l f =
        (none, { m with data := some (l.drop (valueOffset l f.toNat)) })) ∧
    (∀ (m : EventSourceMessage) (l : List Nat) (f : Int), l ≠ [] → ¬ f > 0 →
      messageStep m l f = (none, m)) ∧
    parseStream [str "data:YHOO\ndata: +2\ndata\ndata: 10\n\n"] =
      [⟨none, none, some (str "10"), none⟩] := by
  refine ⟨?_, messageStep_skip, ?_⟩
  · intro m l f hf hfield
    have hl : ¬ l.length = 0 := by
      intro h
      rw [List.eq_nil_of_length_eq_zero h, List.take_nil] at hfield
      exact absurd hfield (by decide)
    simp only [messageStep, if_neg hl, if_pos hf, hfield]
    rw [if_neg (show ¬ str "data" = str "retry" by decide)]
    simp
  · rw [parseStream_eval]
    decide

/-- C2 witness: a `data` line overwrites previously accumulated data. -/
theorem C2_data_overwrite_witness :
    messageStep ⟨none, none, some (str "old"), none⟩ (str "data:new") 4 =
      (none, ⟨none, none, some (str "new"), none⟩) := by
  have h := C2_data_overwrite.1 ⟨none, none, some (str "old"), none⟩
    (str "data:new") 4 (by decide) (by decide)
  rw [h]
  decide

/-- C3 counterexample: the input `"id: foo\nid\n\n"` fed through
`getLines` then `getMessages` yields one message whose id is `"foo"`, not
the empty string: the bare `id` line has no colon, is reported with
fieldLength `-1`, and is ignored. -/
theorem C3_counterexample :
    parseStream [str "id: foo\nid\n\n"] = [⟨some (str "foo"), none, none, none⟩] ∧
    ¬ str "foo" = str "" := by
  constructor
  · rw [parseStream_eval]
    decide
  · decide

/-- C3 amended: an `id` field line (with a colon, so fieldLength > 0) sets
the accumulator's id to its decoded value, overwriting any previous id —
in particular an empty value resets id to the empty string, distinguished
from id being absent; but a bare `id` line with no colon is reported by
`getLines` with fieldLength `-1` and ignored by `getMessages`, so
`"id: foo\nid\n\n"` yields id `"foo"` while `"id: foo\nid:\n\n"` yields
the empty id. -/
theorem C3_id_overwrite_reset :
    (∀ (m : EventSourceMessage) (l : List Nat) (f : Int), f > 0 →
      l.take f.toNat = str "id" →
      messageStep m l f =
        (none, { m with id := some (l.drop (valueOffset l f.toNat)) })) ∧
    parseStream [str "id: foo\nid:\n\n"] = [⟨some (str ""), none, none, none⟩] ∧
    getLines [str "id: foo\nid\n\n"] =
      [(str "id: foo", 2), (str "id", -1), (str "", -1)] ∧
    parseStream [str "id: foo\nid\n\n"] = [⟨some (str "foo"), none, none, none⟩] := by
  refine ⟨?_, ?_, ?_, ?_⟩
  · intro m l f hf hfield
    have hl : ¬ l.length = 0 := by
      intro h
      rw [List.eq_nil_of_length_eq_zero h, List.take_nil] at hfield
      exact absurd hfield (by decide)
    simp only [messageStep, if_neg hl, if_pos hf, hfield]
    rw [if_neg (show ¬ str "id" = str "retry" by decide),
      if_neg (show ¬ str "id" = str "data" by decide),
      if_neg (show ¬ str "id" = str "event" by decide)]
    simp
  · rw [parseStream_eval]
    decide
  · rw [getLines_eq_linesRun]
    decide
  · rw [parseStream_eval]
    decide

/-- C3 witness: an `id` line with a colon and empty value resets a
previously set id to the empty string. -/
theorem C3_id_overwrite_reset_witness :
    messageStep ⟨some (str "foo"), none, none, none⟩ (str "id:") 2 =
      (none, ⟨some (str ""), none, none, none⟩) := by
  have h := C3_id_overwrite_reset.1 ⟨some (str "foo"), none, none, none⟩
    (str "id:") 2 (by decide) (by decide)
  rw [h]
  decide

/-- C4: on every empty input line the pending message is emitted if and
only if at least one of its fields was set, and the accumulator is then
reset to empty defaults; the check is one-shot (from the empty
accumulator a blank line emits nothing), and a group of only comment and
blank lines emits no message at all. -/
theorem C4_emission_invariant :
    (∀ (m : EventSourceMessage) (f : Int),
      (messageStep m [] f).1 = (if hasAnyField m then some m else none) ∧
      (messageStep m [] f).2 = (if hasAnyField m then emptyMessage else m)) ∧
    (∀ f : Int, (messageStep emptyMessage [] f).1 = none) ∧
    (∀ lines : List (List Nat × Int), (∀ p ∈ lines, p.1 = [] ∨ p.2 ≤ 0) →
      getMessages lines = []) := by
  refine ⟨?_, ?_, ?_⟩
  · intro m f
    by_cases h : hasAnyField m <;> simp [messageStep, h]
  · intro f
    simp [messageStep, hasAnyField, emptyMessage]
  · intro lines h
    unfold getMessages
    rw [getMessagesRun_comments lines h]

/-- C4 witness: a one-field message is emitted on a blank line; the empty
accumulator emits nothing; a comment-and-blank-only stream yields no
message. -/
theorem C4_emission_invariant_witness :
    (messageStep ⟨some (str "abc"), none, none, none⟩ [] (-1)).1 =
      some ⟨some (str "abc"), none, none, none⟩ ∧
    (messageStep emptyMessage [] (-1)).1 = none ∧
    getMessages [(str ": comment", 0), ([], -1)] = [] := by
  refine ⟨?_, C4_emission_invariant.2.1 (-1), C4_emission_invariant.2.2 _ (by decide)⟩
  rw [(C4_emission_invariant.1 ⟨some (str "abc"), none, none, none⟩ (-1)).1]
  decide

/-- C5: for every `retry` field line the decoded value is parsed as a
base-10 integer; a failed parse leaves the accumulator unchanged (the
field is silently ignored), a successful parse overwrites the
accumulator's retry, and no other field is touched; a failed parse aborts
nothing — the rest of the stream still yields its messages, as on
`"retry: not-a-number\nid: x\n\n"` (and a stream with no other field set
yields no message at all, not a partial one). -/
theorem C5_retry_error_handling :
    (∀ (m : EventSourceMessage) (l : List Nat) (f : Int), f > 0 →
      l.take f.toNat = str "retry" →
      (jsParseInt (l.drop (valueOffset l f.toNat)) = none →
        messageStep m l f = (none, m)) ∧
      (∀ n : Int, jsParseInt (l.drop (valueOffset l f.toNat)) = some n →
        messageStep m l f = (none, { m with retry := some n }))) ∧
    parseStream [str "retry: not-a-number\n\n"] = [] ∧
    parseStream [str "retry: not-a-number\nid: x\n\n"] =
      [⟨some (str "x"), none, none, none⟩] := by
  refine ⟨?_, ?_, ?_⟩
  · intro m l f hf hfield
    have hl : ¬ l.length = 0 := by
      intro h
      rw [List.eq_nil_of_length_eq_zero h, List.take_nil] at hfield
      exact absurd hfield (by decide)
    constructor
    · intro hnone
      simp only [messageStep, if_neg hl, if_pos hf, hfield]
      simp [hnone]
    · intro n hsome
      simp only [messageStep, if_neg hl, if_pos hf, hfield]
      simp [hsome]
  · rw [parseStream_eval]
    decide
  · rw [parseStream_eval]
    decide

/-- C5 witness: a numeric retry value overwrites, a non-numeric one is
ignored and leaves the previous retry value untouched. -/
theorem C5_retry_error_handling_witness :
    messageStep ⟨none, none, none, some 7⟩ (str "retry: 42") 5 =
      (none, ⟨none, none, none, some 42⟩) ∧
    messageStep ⟨none, none, none, some 7⟩ (str "retry: xyz") 5 =
      (none, ⟨none, none, none, some 7⟩) := by
  constructor
  · have h := (C5_retry_error_handling.1 ⟨none, none, none, some 7⟩
      (str "retry: 42") 5 (by decide) (by decide)).2 42 (by decide)
    rw [h]
  · have h := (C5_retry_error_handling.1 ⟨none, none, none, some 7⟩
      (str "retry: xyz") 5 (by decide) (by decide)).1 (by decide)
    rw [h]

/-- C6: a line terminated by `"\r\n"` split across two chunks (one chunk
ending in `\r`, the next beginning with `\n`) makes `getLines` emit
exactly one line ending at the `\r` and silently consume the following
`\n` — no spurious empty line — and the stream then continues as if
fresh; and within a single chunk the three terminators `\n`, `\r` and
`\r\n` are recognized equivalently. -/
theorem C6_crlf_collapsing (a b : List Nat) (ha : noTerm a) :
    getLines [a ++ [ControlChars.CarriageReturn], ControlChars.NewLine :: b] =
      (a, firstColonFL a) :: getLines [b] ∧
    getLines [a ++ [ControlChars.NewLine]] = [(a, firstColonFL a)] ∧
    getLines [a ++ [ControlChars.CarriageReturn]] = [(a, firstColonFL a)] ∧
    getLines [a ++ [ControlChars.CarriageReturn, ControlChars.NewLine]] =
      [(a, firstColonFL a)] := by
  refine ⟨?_, ?_, ?_, ?_⟩
  · rw [getLines_eq_linesRun, getLines_eq_linesRun]
    simp only [List.flatten_cons, List.flatten_nil, List.append_nil, List.append_assoc,
      List.cons_append, List.nil_append]
    rw [linesRun_append_noTerm a [] _ ha]
    simp [linesRun, linesRun_skip]
  · rw [getLines_eq_linesRun]
    simp only [List.flatten_cons, List.flatten_nil, List.append_nil]
    rw [linesRun_append_noTerm a [] _ ha]
    simp [linesRun]
  · rw [getLines_eq_linesRun]
    simp only [List.flatten_cons, List.flatten_nil, List.append_nil]
    rw [linesRun_append_noTerm a [] _ ha]
    simp [linesRun]
  · rw [getLines_eq_linesRun]
    simp only [List.flatten_cons, List.flatten_nil, List.append_nil]
    rw [linesRun_append_noTerm a [] _ ha]
    simp [linesRun, linesRun_skip]

/-- C6 witness: `"id\r"` then `"\nx\n"` gives the line `"id"` once, with
no spurious empty line in between. -/
theorem C6_crlf_collapsing_witness :
    getLines [str "id" ++ [ControlChars.CarriageReturn],
      ControlChars.NewLine :: str "x\n"] =
      (str "id", -1) :: getLines [str "x\n"] := by
  have h := (C6_crlf_collapsing (str "id") (str "x\n") (by decide)).1
  rw [h, show firstColonFL (str "id") = -1 from by decide]

/-- C7: every pair yielded by `getLines` carries as fieldLength the offset
of the first colon of the line (later colons never change it), `-1` when
the line has no colon; offset 0 marks a comment line; in particular
`"id: abc\n"` yields offset 2, `": comment\n"` yields offset 0, and
`"no-colon-here\n"` yields offset `-1`. -/
theorem C7_field_separator_offset :
    (∀ (chunks : List (List Nat)) (l : List Nat) (f : Int),
      (l, f) ∈ getLines chunks → f = firstColonFL l) ∧
    getLines [str "id: abc\n"] = [(str "id: abc", 2)] ∧
    getLines [str ": comment\n"] = [(str ": comment", 0)] ∧
    getLines [str "no-colon-here\n"] = [(str "no-colon-here", -1)] := by
  refine ⟨?_, ?_, ?_, ?_⟩
  · intro chunks l f h
    rw [getLines_eq_linesRun] at h
    exact (linesRun_out_sound chunks.flatten false []
      (by intro b hb; simp at hb) l f h).1
  · rw [getLines_eq_linesRun]
    decide
  · rw [getLines_eq_linesRun]
    decide
  · rw [getLines_eq_linesRun]
    decide

/-- C7 witness: the line `"id: abc"` is yielded with fieldLength 2, the
offset of its first colon. -/
theorem C7_field_separator_offset_witness :
    (str "id: abc", (2 : Int)) ∈ getLines [str "id: abc\n"] ∧
    (2 : Int) = firstColonFL (str "id: abc") := by
  constructor
  · rw [C7_field_separator_offset.2.1]
    decide
  · exact C7_field_separator_offset.1 [str "id: abc\n"] (str "id: abc") 2
      (by rw [C7_field_separator_offset.2.1]; decide)

/-- C8: unterminated tails are dropped at end of input: appending a
terminator-free tail to a stream leaves `getLines` output unchanged (the
trailing partial line is never emitted), and appending any run of
non-blank lines to a line stream leaves `getMessages` output unchanged
(an unterminated in-progress message is never emitted). -/
theorem C8_unterminated_tails :
    (∀ (flat a : List Nat), noTerm a → getLines [flat ++ a] = getLines [flat]) ∧
    (∀ (lines extra : List (List Nat × Int)), (∀ p ∈ extra, p.1 ≠ []) →
      getMessages (lines ++ extra) = getMessages lines) := by
  constructor
  · intro flat a ha
    rw [getLines_eq_linesRun, getLines_eq_linesRun]
    simp only [List.flatten_cons, List.flatten_nil, List.append_nil]
    rw [linesRun_append flat a]
    simp [linesRun_out_noTerm a _ _ ha]
  · intro lines extra h
    unfold getMessages
    rw [getMessagesRun_append]
    simp [getMessagesRun_no_blank extra _ h]

/-- C8 witness: a trailing partial line `"data: tail"` and a trailing
unterminated field line produce no extra output. -/
theorem C8_unterminated_tails_witness :
    getLines [str "id: a\n" ++ str "data: tail"] = getLines [str "id: a\n"] ∧
    getMessages [(str "id: a", 2), ([], -1), (str "data: x", 4)] =
      getMessages [(str "id: a", 2), ([], -1)] := by
  constructor
  · exact C8_unterminated_tails.1 (str "id: a\n") (str "data: tail") (by decide)
  · exact C8_unterminated_tails.2 [(str "id: a", 2), ([], -1)] [(str "data: x", 4)]
      (by decide)

/-- C9: implicit output invariant of `getLines`: every yielded pair
(line, fieldLength) has a line free of `\r` (13) and `\n` (10) bytes, and
fieldLength is `-1` exactly when the line has no colon byte (58), and
otherwise equals the index of the first colon within the line; over every
chunking of every input. -/
theorem C9_line_output_invariant :
    ∀ (chunks : List (List Nat)) (l : List Nat) (f : Int),
      (l, f) ∈ getLines chunks →
      (ControlChars.CarriageReturn ∉ l ∧ ControlChars.NewLine ∉ l) ∧
      (ControlChars.Colon ∉ l → f = -1) ∧
      (∀ i : Nat, l[i]? = some ControlChars.Colon →
        (∀ j, j < i → ¬ l[j]? = some ControlChars.Colon) → f = (i : Int)) := by
  intro chunks l f h
  rw [getLines_eq_linesRun] at h
  have hsound := linesRun_out_sound chunks.flatten false []
    (by intro b hb; simp at hb) l f h
  obtain ⟨hfl, hnt⟩ := hsound
  refine ⟨⟨?_, ?_⟩, ?_, ?_⟩
  · intro hmem
    exact (hnt _ hmem).1 rfl
  · intro hmem
    exact (hnt _ hmem).2 rfl
  · intro hnc
    rw [hfl, (firstColonFL_eq_neg_one l).mpr ((firstColonIdx_none l).mpr hnc)]
  · intro i hi hmin
    rw [hfl, firstColonFL_of_idx l i (firstColonIdx_first l i hi hmin)]

/-- C9 witness: the yielded line `"a:b"` has no terminator bytes and its
fieldLength 1 is the index of its first colon. -/
theorem C9_line_output_invariant_witness :
    ControlChars.CarriageReturn ∉ str "a:b" ∧
    (1 : Int) = ((1 : Nat) : Int) := by
  have hmem : (str "a:b", (1 : Int)) ∈ getLines [str "a:b\r"] := by
    rw [getLines_eq_linesRun]
    decide
  have h := C9_line_output_invariant [str "a:b\r"] (str "a:b") 1 hmem
  exact ⟨h.1.1, h.2.2 1 (by decide) (by decide)⟩

/-- C10: implicit retry leniency: `jsParseInt` accepts any value that
begins with optional whitespace, an optional sign and a digit run,
ignoring everything after the digits — so `"42abc"` parses to 42 and sets
retry to 42 through the whole pipeline; only values with no leading
integer at all parse to `none` (NaN) and are ignored. -/
theorem C10_retry_parseInt_leniency :
    (∀ (w s dgts r : List Nat),
      (∀ c ∈ w, isJsWhitespace c = true) →
      (s = [] ∨ s = [43] ∨ s = [45]) →
      dgts ≠ [] → (∀ c ∈ dgts, isDigit c = true) →
      (∀ c, r.head? = some c → isDigit c = false) →
      jsParseInt (w ++ s ++ dgts ++ r) =
        some (if s = [45] then -(digitsVal dgts : Int) else (digitsVal dgts : Int))) ∧
    jsParseInt (str "42abc") = some 42 ∧
    parseStream [str "retry: 42abc\n\n"] = [⟨none, none, none, some 42⟩] := by
  refine ⟨?_, by decide, by rw [parseStream_eval]; decide⟩
  intro w s dgts r hw hs hd hdig hr
  obtain ⟨d0, ds, rfl⟩ : ∃ d0 ds, dgts = d0 :: ds := by
    cases dgts with
    | nil => exact absurd rfl hd
    | cons d0 ds => exact ⟨d0, ds, rfl⟩
  have hd0 := hdig d0 (List.mem_cons_self _ _)
  have htake : List.takeWhile isDigit ((d0 :: ds) ++ r) = d0 :: ds :=
    takeWhile_all_head_false isDigit (d0 :: ds) r hdig hr
  unfold jsParseInt
  rw [List.append_assoc, List.append_assoc, dropWhile_append_all isJsWhitespace w _ hw]
  rcases hs with rfl | rfl | rfl
  · simp only [List.nil_append, List.cons_append]
    rw [show List.dropWhile isJsWhitespace (d0 :: (ds ++ r)) = d0 :: (ds ++ r) from
      dropWhile_of_head_false _ _ _ (isDigit_not_ws d0 hd0)]
    simp only [if_neg (isDigit_ne_sign d0 hd0).1, if_neg (isDigit_ne_sign d0 hd0).2]
    rw [show (d0 :: (ds ++ r)) = (d0 :: ds) ++ r from rfl, htake]
    simp
  · simp only [List.cons_append, List.nil_append]
    rw [show List.dropWhile isJsWhitespace (43 :: d0 :: (ds ++ r)) =
      43 :: d0 :: (ds ++ r) from dropWhile_of_head_false _ _ _ (by decide)]
    simp only [if_pos rfl]
    rw [show (d0 :: (ds ++ r)) = (d0 :: ds) ++ r from rfl, htake]
    simp
  · simp only [List.cons_append, List.nil_append]
    rw [show List.dropWhile isJsWhitespace (45 :: d0 :: (ds ++ r)) =
      45 :: d0 :: (ds ++ r) from dropWhile_of_head_false _ _ _ (by decide)]
    simp only [if_neg (show ¬ (45 : Nat) = 43 by decide), if_pos rfl]
    rw [show (d0 :: (ds ++ r)) = (d0 :: ds) ++ r from rfl, htake]
    simp

/-- C10 witness: `" +42abc"` parses to 42 under parseInt semantics. -/
theorem C10_retry_parseInt_leniency_witness :
    jsParseInt ([32] ++ [43] ++ str "42" ++ str "abc") = some 42 := by
  have h := C10_retry_parseInt_leniency.1 [32] [43] (str "42") (str "abc")
    (by decide) (Or.inr (Or.inl rfl)) (by decide) (by decide) (by decide)
  rw [h]
  decide

end SSE